import Mathlib

/-!
Verification of the rust_dsp streaming DSP runtime against its
natural-language specification.

The Rust sources are shallowly embedded:

* `RingBuf` (src/ringbuf.rs) becomes a record of a backing list `mem`
  (length = capacity), read/write pointers, a size counter and the
  `overwrite` flag.  The chunked copy loops of `put`/`get` are embedded
  as structural recursions on an explicit fuel argument; the fuel equals
  the loop bound of the source (total number of items still to move), so
  it is never exhausted on states reachable from `new` — the `write = 0`
  guard corresponds to the states on which the source loop would never
  terminate (unreachable under the ring invariant `rp < capacity`).
* `StreamBuf` (src/streambuf.rs) becomes the same record extended with
  the blocking/closure flags.  Blocking on the condition variable is
  modelled as an explicit outcome: `getStep`/`putStep` return either a
  result or a `waiting` marker carrying exactly the data the thread
  froze before going to sleep; being woken corresponds to evaluating
  `getWake`/`putWake` on the state current at wake time, mirroring the
  `while` re-check in the source.
* The numeric blocks (src/util.rs, src/block.rs) are embedded over `ℝ`
  and `ℂ`: `f32` arithmetic is idealised as real arithmetic, which is
  the reading under which the spec's formulas are stated.
-/

set_option maxHeartbeats 1000000

open Real

namespace RustDsp

/-! ### RingBuf (src/ringbuf.rs) -/

structure RingBuf (T : Type) where
  mem : List T
  rp : Nat
  wp : Nat
  size : Nat
  overwrite : Bool
deriving DecidableEq

namespace RingBuf

variable {T : Type}

/-- `mem.capacity()`: the backing store has fixed length. -/
def capacity (b : RingBuf T) : Nat := b.mem.length

/-- `copy_from_slice` into `mem[pos .. pos + chunk.length]`. -/
def copySlice (mem : List T) (pos : Nat) (chunk : List T) : List T :=
  mem.take pos ++ chunk ++ mem.drop (pos + chunk.length)

/-- The `while off < buf.len()` copy loop of `RingBuf::put` (and, verbatim,
of `StreamWriter::put`).  One recursion step is one loop iteration: it
writes `write = min(remaining, capacity - wp)` items at `wp`, advances
`wp` and `size`, and applies the overwrite adjustment when `size`
exceeds the capacity.  `fuel` bounds the iteration count; `buf.length`
is always enough since every iteration moves at least one item. -/
def putLoopF (fuel : Nat) (b : RingBuf T) (buf : List T) : RingBuf T :=
  match fuel with
  | 0 => b
  | fuel + 1 =>
    let write := min buf.length (b.capacity - b.wp)
    if write = 0 then b
    else
      let mem1 := copySlice b.mem b.wp (buf.take write)
      let wp1 := (b.wp + write) % b.capacity
      let size1 := b.size + write
      let b1 : RingBuf T :=
        if b.capacity < size1 then
          ⟨mem1, (b.rp + (size1 - b.capacity)) % b.capacity, wp1, b.capacity, b.overwrite⟩
        else
          ⟨mem1, b.rp, wp1, size1, b.overwrite⟩
      putLoopF fuel b1 (buf.drop write)

/-- `RingBuf::put`: without `overwrite` the input is first truncated to
the free space; the return value is the length of the (possibly
truncated) slice actually copied. -/
def put (b : RingBuf T) (buf : List T) : RingBuf T × Nat :=
  let buf1 := if b.overwrite then buf else buf.take (b.capacity - b.size)
  (putLoopF buf1.length b buf1, buf1.length)

/-- The `while off < buf.len()` copy loop of `RingBuf::get` (and,
verbatim, of `StreamReader::get`).  `r` is the number of items still to
read out of the initial `min(dst.len(), size)`. -/
def getLoopF (fuel : Nat) (b : RingBuf T) (r : Nat) (acc : List T) : RingBuf T × List T :=
  match fuel with
  | 0 => (b, acc)
  | fuel + 1 =>
    let read := min r (b.capacity - b.rp)
    if read = 0 then (b, acc)
    else
      let piece := (b.mem.drop b.rp).take read
      getLoopF fuel ⟨b.mem, (b.rp + read) % b.capacity, b.wp, b.size - read, b.overwrite⟩
        (r - read) (acc ++ piece)

/-- `RingBuf::get` with a destination of length `n`; the returned list
is the data copied into the destination prefix (its length is the
source's return value `min(n, size)`). -/
def get (b : RingBuf T) (n : Nat) : RingBuf T × List T :=
  getLoopF (min n b.size) b (min n b.size) []

/-- The logical FIFO contents: `size` items starting at `rp`, wrapping. -/
def contents [Inhabited T] (b : RingBuf T) : List T :=
  (List.range b.size).map (fun i => b.mem.getD ((b.rp + i) % b.capacity) default)

/-- The ring invariant, established by `new` and preserved by `put`/`get`. -/
def Inv (b : RingBuf T) : Prop :=
  b.rp < b.capacity ∧ b.size ≤ b.capacity ∧ b.wp = (b.rp + b.size) % b.capacity

/-- A sequence of `put` calls; the second component collects the items
each call actually wrote (`buf.take n` for the returned count `n`), in
order. -/
def putAll (b : RingBuf T) : List (List T) → RingBuf T × List T
  | [] => (b, [])
  | w :: ws =>
    ((putAll (put b w).1 ws).1, w.take (put b w).2 ++ (putAll (put b w).1 ws).2)

/-- A sequence of `get` calls with the given destination sizes; the
second component concatenates the items read, in order. -/
def getAll (b : RingBuf T) : List Nat → RingBuf T × List T
  | [] => (b, [])
  | n :: ns =>
    ((getAll (get b n).1 ns).1, (get b n).2 ++ (getAll (get b n).1 ns).2)

end RingBuf

/-- The byte sequence of the test string
"hello world, this is your programmer writing" (ASCII codes), used by
`test_ringbuf_overwrite` in src/ringbuf.rs. -/
def testMessage : List Nat :=
  [104, 101, 108, 108, 111, 32, 119, 111, 114, 108, 100, 44, 32, 116, 104, 105,
   115, 32, 105, 115, 32, 121, 111, 117, 114, 32, 112, 114, 111, 103, 114, 97,
   109, 109, 101, 114, 32, 119, 114, 105, 116, 105, 110, 103]

/-! ### StreamBuf (src/streambuf.rs)

The shared state behind the mutex.  Blocking on the condition variable is
modelled as an explicit `waiting` outcome; a woken thread re-evaluates
the corresponding `Wake` function on the state current at wake time,
which is exactly the `while` re-check of the source. -/

structure StreamBuf (T : Type) where
  mem : List T
  rp : Nat
  wp : Nat
  size : Nat
  overwrite : Bool
  block_read : Bool
  block_write : Bool
  read_closed : Bool
  write_closed : Bool
deriving DecidableEq

namespace StreamBuf

variable {T : Type}

def capacity (s : StreamBuf T) : Nat := s.mem.length

/-- The ring-buffer view of the shared state (the copy loops in
`StreamReader::get` and `StreamWriter::put` are verbatim those of
`RingBuf`). -/
def ring (s : StreamBuf T) : RingBuf T :=
  ⟨s.mem, s.rp, s.wp, s.size, s.overwrite⟩

/-- Write the ring-buffer fields back into the stream state. -/
def withRing (s : StreamBuf T) (b : RingBuf T) : StreamBuf T :=
  ⟨b.mem, b.rp, b.wp, b.size, s.overwrite, s.block_read, s.block_write,
    s.read_closed, s.write_closed⟩

/-- `new_stream` rejects `overwrite ∧ block_write`; on success the buffer
starts empty with both pointers at zero and nothing closed.  `mem0` is
the (uninitialised) backing store of the requested capacity. -/
def newStream (mem0 : List T) (overwrite block_write block_read : Bool) :
    Option (StreamBuf T) :=
  if overwrite ∧ block_write then none
  else some ⟨mem0, 0, 0, 0, overwrite, block_read, block_write, false, false⟩

/-- Outcome of `StreamReader::get`.  `ret st data` stands for `Ok(n)` with
`n = data.length` after copying `data` into the destination prefix and
leaving the state `st`; `waiting` stands for going to sleep on the
condvar (the destination slice frozen before sleeping is always empty,
because the code truncates it with the size read while `size == 0`). -/
inductive GetOut (T : Type) where
  | errInvalid : GetOut T
  | errWouldBlock : GetOut T
  | ret : StreamBuf T → List T → GetOut T
  | waiting : GetOut T
deriving DecidableEq

/-- Outcome of `StreamWriter::put`.  `waiting frozen` records the
already-truncated slice the writer will copy after it wakes. -/
inductive PutOut (T : Type) where
  | errInvalid : PutOut T
  | errClosed : PutOut T
  | errWouldBlock : PutOut T
  | ret : StreamBuf T → Nat → PutOut T
  | waiting : List T → PutOut T
deriving DecidableEq

/-- The copy phase of `StreamReader::get`: read `k` items (`k` is the
length of the destination slice fixed at entry). -/
def doRead (s : StreamBuf T) (k : Nat) : StreamBuf T × List T :=
  (withRing s (RingBuf.getLoopF k (ring s) k []).1, (RingBuf.getLoopF k (ring s) k []).2)

/-- `StreamReader::get` up to its first suspension: zero-length
destinations fail, the destination is truncated to `min n size`, then
either the EOF/wait check (blocking) or the WouldBlock check
(non-blocking) runs, and otherwise the copy loop. -/
def getStep (s : StreamBuf T) (n : Nat) : GetOut T :=
  if n = 0 then .errInvalid
  else if s.block_read then
    if s.size = 0 then
      if s.write_closed then .ret s [] else .waiting
    else .ret (doRead s (min n s.size)).1 (doRead s (min n s.size)).2
  else if s.size = 0 then .errWouldBlock
  else .ret (doRead s (min n s.size)).1 (doRead s (min n s.size)).2

/-- A reader woken on the condvar re-checks `size == 0` (and EOF) and then
runs the copy loop over its frozen — empty — destination slice, so it
returns `Ok(0)` copying nothing. -/
def getWake (s : StreamBuf T) : GetOut T :=
  if s.size = 0 then
    if s.write_closed then .ret s [] else .waiting
  else .ret s []

/-- The copy phase of `StreamWriter::put` over the frozen slice `buf`. -/
def doWrite (s : StreamBuf T) (buf : List T) : StreamBuf T × Nat :=
  (withRing s (RingBuf.putLoopF buf.length (ring s) buf), buf.length)

/-- `StreamWriter::put` up to its first suspension: zero-length buffers
fail, the buffer is truncated to the free space unless `overwrite`, then
the closed / full checks run in source order, and otherwise the copy
loop. -/
def putStep (s : StreamBuf T) (buffer : List T) : PutOut T :=
  if buffer.length = 0 then .errInvalid
  else
    let buf := if ¬ s.overwrite then buffer.take (s.capacity - s.size) else buffer
    if s.write_closed then .errClosed
    else if s.block_write then
      if s.size = s.capacity then .waiting buf
      else .ret (doWrite s buf).1 (doWrite s buf).2
    else if ¬ s.overwrite ∧ s.size = s.capacity then .errWouldBlock
    else .ret (doWrite s buf).1 (doWrite s buf).2

/-- A writer woken on the condvar re-checks only `size == capacity` and
then copies its frozen slice; it never looks at `read_closed`. -/
def putWake (s : StreamBuf T) (frozen : List T) : PutOut T :=
  if s.size = s.capacity then .waiting frozen
  else .ret (doWrite s frozen).1 (doWrite s frozen).2

/-- Outcome of `StreamReader::peek` as far as its control flow decides
between returning a view, failing, or sleeping. -/
inductive PeekOut where
  | errWouldBlock : PeekOut
  | view : PeekOut
  | waiting : PeekOut
deriving DecidableEq

/-- `StreamReader::peek`: with `block_read` it sleeps while `size == 0`
and otherwise returns the iterator; without `block_read` it returns
WouldBlock unconditionally — the non-empty case is unreachable because
the `else` belongs to `if block_read`, not to the emptiness test. -/
def peekStep (s : StreamBuf T) : PeekOut :=
  if s.block_read then
    if s.size = 0 then .waiting else .view
  else .errWouldBlock

/-- `Drop for StreamReader`: sets `read_closed` and broadcasts. -/
def dropReader (s : StreamBuf T) : StreamBuf T :=
  ⟨s.mem, s.rp, s.wp, s.size, s.overwrite, s.block_read, s.block_write,
    true, s.write_closed⟩

/-- `Drop for StreamWriter`: sets `write_closed` and broadcasts. -/
def dropWriter (s : StreamBuf T) : StreamBuf T :=
  ⟨s.mem, s.rp, s.wp, s.size, s.overwrite, s.block_read, s.block_write,
    s.read_closed, true⟩

end StreamBuf

/-! ### Numeric helpers (src/util.rs), embedded over the reals -/

/-- `SincArg for f32::sinc`: 1 at 0, otherwise `sin(x*PI)/(x*PI)`. -/
noncomputable def sinc (x : ℝ) : ℝ := if x = 0 then 1 else Real.sin (x * π) / (x * π)

/-- `lowpass_taps` (src/util.rs).  Note that the source computes the
centring offset as `n - m/2` with `m = num_taps - 1` in `isize`
arithmetic, i.e. with integer (floor) division of `m` by 2; the window
denominator `m as f32` is an exact (real) division. -/
noncomputable def lowpass_taps (cutoff : ℝ) (num_taps : Nat) : List ℝ :=
  (List.range num_taps).map fun (n : Nat) =>
    sinc (2 * cutoff * ((n : ℝ) - (((num_taps - 1) / 2 : Nat) : ℝ))) *
      (0.54 - 0.46 * Real.cos (2 * π * (n : ℝ) / ((num_taps : ℝ) - 1)))

/-- Modelled from the spec (§4.9 formula, for comparison with the
source): the same windowed sinc with the exact half-offset `M/2 =
(N-1)/2` as a real number. -/
noncomputable def lowpass_taps_spec_form (cutoff : ℝ) (num_taps : Nat) : List ℝ :=
  (List.range num_taps).map fun (n : Nat) =>
    sinc (2 * cutoff * ((n : ℝ) - ((num_taps : ℝ) - 1) / 2)) *
      (0.54 - 0.46 * Real.cos (2 * π * (n : ℝ) / ((num_taps : ℝ) - 1)))

/-! ### FIRFilter (src/block.rs), generic in the sample arithmetic -/

structure FIRFilter (T : Type) where
  taps : List T
  history : List T
  index : Nat

namespace FIRFilter

variable {T : Type} [Zero T] [Add T] [Mul T]

/-- `FIRFilter::new`: zero-filled history of the same length as the taps. -/
def new (taps : List T) : FIRFilter T :=
  ⟨taps, List.replicate taps.length 0, 0⟩

/-- One iteration of the sample loop in `Filter<T, T> for FIRFilter<T>`:
store the sample at `index`, accumulate `taps[i] * history[(index + 1 +
i) % len]`, advance `index`. -/
def step (f : FIRFilter T) (x : T) : FIRFilter T × T :=
  ((⟨f.taps, (f.history.set f.index x), (f.index + 1) % f.history.length⟩ : FIRFilter T),
    (List.range f.taps.length).foldl
      (fun a i => a + f.taps.getD i 0 *
        (f.history.set f.index x).getD ((f.index + 1 + i) % f.history.length) 0) 0)

/-- `FIRFilter::filter` over a whole input slice. -/
def filter (f : FIRFilter T) : List T → FIRFilter T × List T
  | [] => (f, [])
  | x :: rest =>
    ((filter (f.step x).1 rest).1, (f.step x).2 :: (filter (f.step x).1 rest).2)

end FIRFilter

/-- Modelled from the spec (§4.5): the canonical convolution
`y n = Σ taps[k] · x (n - k)` with zero initial history, `taps[0]`
multiplying the newest sample. -/
def canonicalFIR {T : Type} [Zero T] [Add T] [Mul T] (taps xs : List T) : List T :=
  (List.range xs.length).map fun n =>
    (List.range taps.length).foldl
      (fun a k => a + taps.getD k 0 * (if k ≤ n then xs.getD (n - k) 0 else 0)) 0

/-! ### MixerFilter (src/block.rs), over ℝ and ℂ -/

/-- `f32::rem_euclid`: Euclidean remainder on the reals. -/
noncomputable def rem_euclid (x y : ℝ) : ℝ := x - y * ⌊x / y⌋

structure MixerFilter where
  phase : ℝ
  omega : ℝ

namespace MixerFilter

/-- `MixerFilter::new`: phase 0 and step `2π·freq_shift/sample_rate`. -/
noncomputable def new (sample_rate : Nat) (freq_shift : ℝ) : MixerFilter :=
  ⟨0, 2 * π * freq_shift / (sample_rate : ℝ)⟩

/-- `Filter<f32, Complex32>`: per real sample `x`, emit
`{re: x·cos φ, im: -(x·sin φ)}` and step the phase. -/
noncomputable def filterReal (m : MixerFilter) : List ℝ → MixerFilter × List ℂ
  | [] => (m, [])
  | x :: rest =>
    ((filterReal ⟨rem_euclid (m.phase + m.omega) (2 * π), m.omega⟩ rest).1,
      (⟨x * Real.cos m.phase, -(x * Real.sin m.phase)⟩ : ℂ) ::
        (filterReal ⟨rem_euclid (m.phase + m.omega) (2 * π), m.omega⟩ rest).2)

/-- `Filter<Complex32, Complex32>`: per complex sample `z`, emit
`z * (cos φ + i sin φ)` and step the phase. -/
noncomputable def filterComplex (m : MixerFilter) : List ℂ → MixerFilter × List ℂ
  | [] => (m, [])
  | z :: rest =>
    ((filterComplex ⟨rem_euclid (m.phase + m.omega) (2 * π), m.omega⟩ rest).1,
      (z * ⟨Real.cos m.phase, Real.sin m.phase⟩) ::
        (filterComplex ⟨rem_euclid (m.phase + m.omega) (2 * π), m.omega⟩ rest).2)

end MixerFilter

/-- The phase after `k` samples, starting from `φ`: each sample adds ω
and reduces Euclidean-mod 2π. -/
noncomputable def phaseSeq (omega φ : ℝ) : Nat → ℝ
  | 0 => φ
  | k + 1 => phaseSeq omega (rem_euclid (φ + omega) (2 * π)) k

/-! ### RationalResampler (src/block.rs), over ℝ -/

structure RationalResampler where
  up : Nat
  down : Nat
  phases : List (List ℝ)
  state : List ℝ
  phase : Nat

/-- The tap-distribution loop of `RationalResampler::new`:
`for (i, tap) in taps.into_iter().enumerate() { phases[i % up].push(tap) }`
starting from `vec![vec![]; up]`. -/
def distributeTaps (upN : Nat) (taps : List ℝ) : List (List ℝ) :=
  taps.enum.foldl (fun ph p => ph.set (p.1 % upN) (ph.getD (p.1 % upN) [] ++ [p.2]))
    (List.replicate upN [])

/-- `phases.iter().map(Vec::len).max().unwrap_or(0)`. -/
def maxPhaseLen (phases : List (List ℝ)) : Nat :=
  (phases.map List.length).foldl max 0

namespace RationalResampler

/-- `RationalResampler::new(start, end, num_taps)`. -/
noncomputable def new (start endr num_taps : Nat) : RationalResampler :=
  let gcd := Nat.gcd start endr
  let down := start / gcd
  let up := endr / gcd
  let cutoff : ℝ := 0.5 / ((max up down : Nat) : ℝ)
  let lowpass := lowpass_taps cutoff num_taps
  let phases0 := distributeTaps up lowpass
  let max_len := maxPhaseLen phases0
  let phases := phases0.map (fun p => p ++ List.replicate (max_len - p.length) 0)
  ⟨up, down, phases, List.replicate max_len 0, 0⟩

/-- The accumulation `for (&tap, &samp) in coeffs.zip(state): acc += tap * samp`. -/
noncomputable def dotZip (coeffs st : List ℝ) : ℝ :=
  (coeffs.zip st).foldl (fun a p => a + p.1 * p.2) 0

/-- The `while self.phase < self.up` emission loop; `fuel = up` bounds the
iteration count (each pass adds `down ≥ 1` to the phase). -/
noncomputable def emitLoop : Nat → List (List ℝ) → List ℝ → Nat → Nat → Nat →
    List ℝ × Nat
  | 0, _, _, _, _, p => ([], p)
  | fuel + 1, phases, st, upN, downN, p =>
    if p < upN then
      (dotZip (phases.getD p []) st ::
        (emitLoop fuel phases st upN downN (p + downN)).1,
        (emitLoop fuel phases st upN downN (p + downN)).2)
    else ([], p)

/-- `Filter<T, T> for RationalResampler<T>`: per sample, pop the back of
the state deque, push the sample at the front, emit while `phase < up`
stepping by `down`, then subtract `up`. -/
noncomputable def filter (r : RationalResampler) : List ℝ → RationalResampler × List ℝ
  | [] => (r, [])
  | x :: rest =>
    ((filter ⟨r.up, r.down, r.phases, x :: r.state.dropLast,
        (emitLoop r.up r.phases (x :: r.state.dropLast) r.up r.down r.phase).2 - r.up⟩
      rest).1,
      (emitLoop r.up r.phases (x :: r.state.dropLast) r.up r.down r.phase).1 ++
        (filter ⟨r.up, r.down, r.phases, x :: r.state.dropLast,
          (emitLoop r.up r.phases (x :: r.state.dropLast) r.up r.down r.phase).2 - r.up⟩
        rest).2)

end RationalResampler

/-! ### List helper lemmas -/

theorem drop_eq_range_map {T : Type} [Inhabited T] (l : List T) (k : Nat) :
    l.drop k = (List.range (l.length - k)).map (fun j => l.getD (k + j) default) := by
  apply List.ext_getElem
  · simp
  · intro i h1 h2
    simp only [List.length_drop] at h1
    simp only [List.getElem_drop, List.getElem_map, List.getElem_range]
    rw [List.getD_eq_getElem _ _ (by omega)]

theorem getD_range_map {T : Type} [Inhabited T] (n : Nat) (f : Nat → T) (i : Nat)
    (h : i < n) :
    ((List.range n).map f).getD i default = f i := by
  rw [List.getD_eq_getElem _ _ (by simpa using h)]
  simp

theorem getD_range_map_any {T : Type} (n : Nat) (f : Nat → T) (i : Nat) (d : T)
    (h : i < n) :
    ((List.range n).map f).getD i d = f i := by
  rw [List.getD_eq_getElem _ _ (by simpa using h)]
  simp

theorem drop_append_drop {T : Type} (l r : List T) (k m : Nat) (hk : k ≤ l.length) :
    (l.drop k ++ r).drop m = (l ++ r).drop (k + m) := by
  rw [List.drop_append_eq_append_drop, List.drop_append_eq_append_drop, List.drop_drop]
  have h1 : m - (l.drop k).length = k + m - l.length := by
    simp only [List.length_drop]; omega
  rw [h1]

/-! ### RingBuf theorems -/

namespace RingBuf

variable {T : Type}

theorem contents_length [Inhabited T] (b : RingBuf T) : b.contents.length = b.size := by
  simp [contents]

theorem copySlice_length (mem : List T) (pos : Nat) (chunk : List T)
    (h : pos + chunk.length ≤ mem.length) :
    (copySlice mem pos chunk).length = mem.length := by
  simp only [copySlice, List.length_append, List.length_take, List.length_drop]
  omega

theorem getD_copySlice [Inhabited T] (mem : List T) (pos : Nat) (chunk : List T)
    (h : pos + chunk.length ≤ mem.length) (i : Nat) :
    (copySlice mem pos chunk).getD i default =
      if pos ≤ i ∧ i < pos + chunk.length then chunk.getD (i - pos) default
      else mem.getD i default := by
  unfold copySlice
  by_cases hlt : i < mem.length
  · have h1 : (mem.take pos).length = pos := by simp; omega
    have h2 : (mem.take pos ++ chunk).length = pos + chunk.length := by simp; omega
    split
    · rename_i hin
      rw [List.getD_append _ _ _ _ (by omega)]
      rw [List.getD_append_right _ _ _ _ (by omega)]
      rw [h1]
    · rename_i hout
      by_cases hsmall : i < pos
      · rw [List.getD_append _ _ _ _ (by omega)]
        rw [List.getD_append _ _ _ _ (by omega)]
        rw [List.getD_eq_getElem _ _ (by simp; omega), List.getD_eq_getElem _ _ hlt]
        simp
      · rw [List.getD_append_right _ _ _ _ (by omega)]
        rw [List.getD_eq_getElem _ _ (by simp; omega), List.getD_eq_getElem _ _ hlt]
        simp only [List.getElem_drop]
        congr 1
        rw [h2]
        omega
  · rw [List.getD_eq_default _ _ (by
      have hcl := copySlice_length mem pos chunk h
      unfold copySlice at hcl
      omega)]
    have hnot : ¬ (pos ≤ i ∧ i < pos + chunk.length) := by omega
    rw [if_neg hnot, List.getD_eq_default _ _ (by omega)]

theorem mod_add_eq_of_lt (a t C : Nat) (h : a % C + t < C) : (a + t) % C = a % C + t := by
  rcases Nat.eq_zero_or_pos C with h0 | hC
  · subst h0; omega
  · rw [Nat.add_mod, Nat.mod_eq_of_lt (show t < C by omega), Nat.mod_eq_of_lt h]

/-- Effect of one iteration of the `put` copy loop on the logical
contents: the chunk is appended and, in the overwrite case, the oldest
items beyond the capacity are dropped. -/
theorem putChunk_spec [Inhabited T] (b : RingBuf T) (chunk : List T)
    (hInv : b.Inv) (hw : chunk.length ≤ b.capacity - b.wp) (b1 : RingBuf T)
    (hb1 : b1 =
      if b.capacity < b.size + chunk.length then
        ⟨copySlice b.mem b.wp chunk,
          (b.rp + (b.size + chunk.length - b.capacity)) % b.capacity,
          (b.wp + chunk.length) % b.capacity, b.capacity, b.overwrite⟩
      else
        ⟨copySlice b.mem b.wp chunk, b.rp,
          (b.wp + chunk.length) % b.capacity, b.size + chunk.length, b.overwrite⟩) :
    b1.Inv ∧ b1.capacity = b.capacity ∧ b1.overwrite = b.overwrite ∧
      b1.size = min (b.size + chunk.length) b.capacity ∧
      b1.contents = (b.contents ++ chunk).drop (b.size + chunk.length - b.capacity) := by
  obtain ⟨hrp, hsz, hwp⟩ := hInv
  have hCpos : 0 < b.capacity := by omega
  have hwpC : b.wp < b.capacity := by rw [hwp]; exact Nat.mod_lt _ hCpos
  have hwC : b.wp + chunk.length ≤ b.capacity := by omega
  have hmem1len : (copySlice b.mem b.wp chunk).length = b.capacity :=
    copySlice_length _ _ _ hwC
  -- the central cell computation
  have hIdx : ∀ i, b.size + chunk.length - b.capacity ≤ i → i < b.size + chunk.length →
      (copySlice b.mem b.wp chunk).getD ((b.rp + i) % b.capacity) default =
        (b.contents ++ chunk).getD i default := by
    intro i hdi hiw
    have hposlt : (b.rp + i) % b.capacity < b.capacity := Nat.mod_lt _ hCpos
    rw [getD_copySlice _ _ _ hwC]
    by_cases hold : i < b.size
    · -- old item: its cell is not covered by the chunk region
      have hnot : ¬ (b.wp ≤ (b.rp + i) % b.capacity ∧
          (b.rp + i) % b.capacity < b.wp + chunk.length) := by
        rintro ⟨hle, hlt⟩
        have htw : (b.rp + i) % b.capacity - b.wp < chunk.length := by omega
        have heq2 : (b.rp + b.size + ((b.rp + i) % b.capacity - b.wp)) % b.capacity =
            (b.rp + b.size) % b.capacity + ((b.rp + i) % b.capacity - b.wp) :=
          mod_add_eq_of_lt _ _ _ (by omega)
        have hmodeq : (b.rp + i) % b.capacity =
            (b.rp + (b.size + ((b.rp + i) % b.capacity - b.wp))) % b.capacity := by
          rw [← Nat.add_assoc, heq2]; omega
        have hcancel : Nat.ModEq b.capacity i (b.size + ((b.rp + i) % b.capacity - b.wp)) :=
          Nat.ModEq.add_left_cancel' b.rp hmodeq
        have hdvd : b.capacity ∣ b.size + ((b.rp + i) % b.capacity - b.wp) - i :=
          (Nat.modEq_iff_dvd' (by omega)).mp hcancel
        have hle2 : b.capacity ≤ b.size + ((b.rp + i) % b.capacity - b.wp) - i :=
          Nat.le_of_dvd (by omega) hdvd
        omega
      rw [if_neg hnot]
      rw [List.getD_append _ _ _ _ (by rw [contents_length]; omega)]
      rw [contents, getD_range_map _ _ _ hold]
    · -- new item: the cell lies inside the freshly copied chunk region
      have hj : (b.rp + i) % b.capacity = b.wp + (i - b.size) := by
        have h1 : b.rp + i = b.rp + b.size + (i - b.size) := by omega
        rw [h1, mod_add_eq_of_lt _ _ _ (by rw [← hwp]; omega), ← hwp]
      rw [if_pos (by omega)]
      rw [List.getD_append_right _ _ _ _ (by rw [contents_length]; omega)]
      rw [contents_length, hj]
      congr 1
      omega
  -- now the conclusion, by cases on the overwrite adjustment
  by_cases hover : b.capacity < b.size + chunk.length
  · rw [if_pos hover] at hb1
    have hmem1 : b1.mem = copySlice b.mem b.wp chunk := by rw [hb1]
    have hrp1 : b1.rp = (b.rp + (b.size + chunk.length - b.capacity)) % b.capacity := by
      rw [hb1]
    have hwp1 : b1.wp = (b.wp + chunk.length) % b.capacity := by rw [hb1]
    have hsz1 : b1.size = b.capacity := by rw [hb1]
    have hov1 : b1.overwrite = b.overwrite := by rw [hb1]
    have hcap1 : b1.capacity = b.capacity := by
      rw [capacity, hmem1]; exact hmem1len
    have hrp1lt : b1.rp < b.capacity := by rw [hrp1]; exact Nat.mod_lt _ hCpos
    have hwpeq : (b.wp + chunk.length) % b.capacity = b1.rp := by
      rw [hrp1, hwp, Nat.mod_add_mod]
      have h3 : b.rp + b.size + chunk.length =
          b.rp + (b.size + chunk.length - b.capacity) + b.capacity := by omega
      rw [h3, Nat.add_mod_right]
    refine ⟨⟨by omega, by omega, ?_⟩, hcap1, hov1, by omega, ?_⟩
    · rw [hwp1, hwpeq, hcap1, hsz1, Nat.add_mod_right, Nat.mod_eq_of_lt hrp1lt]
    · -- contents
      rw [drop_eq_range_map]
      have hlen : (b.contents ++ chunk).length - (b.size + chunk.length - b.capacity)
          = b.capacity := by
        simp [contents_length]; omega
      rw [hlen]
      rw [contents, hsz1, hcap1, hmem1, hrp1]
      apply List.map_congr_left
      intro j hj
      rw [List.mem_range] at hj
      rw [Nat.mod_add_mod]
      have harg : b.rp + (b.size + chunk.length - b.capacity) + j =
          b.rp + (b.size + chunk.length - b.capacity + j) := by omega
      rw [harg]
      exact hIdx _ (by omega) (by omega)
  · rw [if_neg hover] at hb1
    have hmem1 : b1.mem = copySlice b.mem b.wp chunk := by rw [hb1]
    have hrp1 : b1.rp = b.rp := by rw [hb1]
    have hwp1 : b1.wp = (b.wp + chunk.length) % b.capacity := by rw [hb1]
    have hsz1 : b1.size = b.size + chunk.length := by rw [hb1]
    have hov1 : b1.overwrite = b.overwrite := by rw [hb1]
    have hcap1 : b1.capacity = b.capacity := by
      rw [capacity, hmem1]; exact hmem1len
    have hd0 : b.size + chunk.length - b.capacity = 0 := by omega
    refine ⟨⟨by omega, by omega, ?_⟩, hcap1, hov1, by omega, ?_⟩
    · rw [hwp1, hcap1, hrp1, hsz1, hwp, Nat.mod_add_mod, Nat.add_assoc]
    · have hdrop : (b.contents ++ chunk).drop (b.size + chunk.length - b.capacity) =
          b.contents ++ chunk := by
        rw [hd0]
        exact List.drop_zero _
      rw [hdrop, contents, hsz1, hcap1, hrp1, hmem1]
      apply List.ext_getElem
      · simp [contents_length]
      · intro j hj1 hj2
        simp only [List.getElem_map, List.getElem_range]
        have hj3 : j < b.size + chunk.length := by simpa using hj1
        rw [← List.getD_eq_getElem (b.contents ++ chunk) default hj2]
        exact hIdx j (by omega) hj3

/-- The `put` copy loop appends its whole input to the logical contents,
dropping the oldest items when the capacity is exceeded (overwrite). -/
theorem putLoopF_spec [Inhabited T] :
    ∀ (fuel : Nat) (b : RingBuf T) (buf : List T), b.Inv → buf.length ≤ fuel →
      (putLoopF fuel b buf).Inv ∧
      (putLoopF fuel b buf).capacity = b.capacity ∧
      (putLoopF fuel b buf).overwrite = b.overwrite ∧
      (putLoopF fuel b buf).size = min (b.size + buf.length) b.capacity ∧
      (putLoopF fuel b buf).contents =
        (b.contents ++ buf).drop (b.size + buf.length - b.capacity) := by
  intro fuel
  induction fuel with
  | zero =>
    intro b buf hInv hf
    have hbuf : buf = [] := List.length_eq_zero.mp (by omega)
    subst hbuf
    obtain ⟨h1, h2, h3⟩ := hInv
    rw [show putLoopF 0 b ([] : List T) = b from rfl]
    refine ⟨⟨h1, h2, h3⟩, rfl, rfl, by simp; omega, ?_⟩
    rw [List.append_nil, List.length_nil,
      show b.size + 0 - b.capacity = 0 from by omega, List.drop_zero]
  | succ fuel ih =>
    intro b buf hInv hf
    obtain ⟨h1, h2, h3⟩ := hInv
    have hCpos : 0 < b.capacity := by omega
    have hwpC : b.wp < b.capacity := by rw [h3]; exact Nat.mod_lt _ hCpos
    by_cases hz : min buf.length (b.capacity - b.wp) = 0
    · have hbuf : buf = [] := List.length_eq_zero.mp (by omega)
      subst hbuf
      have h0 : putLoopF (fuel + 1) b ([] : List T) = b := by
        simp only [putLoopF]
        rw [if_pos hz]
      rw [h0]
      refine ⟨⟨h1, h2, h3⟩, rfl, rfl, by simp; omega, ?_⟩
      rw [List.append_nil, List.length_nil,
        show b.size + 0 - b.capacity = 0 from by omega, List.drop_zero]
    · have hW1 : min buf.length (b.capacity - b.wp) ≤ buf.length := by omega
      have hW2 : min buf.length (b.capacity - b.wp) ≤ b.capacity - b.wp := by omega
      have hWpos : 0 < min buf.length (b.capacity - b.wp) := by omega
      have hclen : (buf.take (min buf.length (b.capacity - b.wp))).length =
          min buf.length (b.capacity - b.wp) := by
        rw [List.length_take]; omega
      obtain ⟨hi1, hi2, hi3, hi4, hi5⟩ :=
        putChunk_spec b (buf.take (min buf.length (b.capacity - b.wp))) ⟨h1, h2, h3⟩
          (by rw [hclen]; omega)
          (if b.capacity < b.size + min buf.length (b.capacity - b.wp) then
            ⟨copySlice b.mem b.wp (buf.take (min buf.length (b.capacity - b.wp))),
              (b.rp + (b.size + min buf.length (b.capacity - b.wp) - b.capacity)) % b.capacity,
              (b.wp + min buf.length (b.capacity - b.wp)) % b.capacity, b.capacity, b.overwrite⟩
          else
            ⟨copySlice b.mem b.wp (buf.take (min buf.length (b.capacity - b.wp))), b.rp,
              (b.wp + min buf.length (b.capacity - b.wp)) % b.capacity,
              b.size + min buf.length (b.capacity - b.wp), b.overwrite⟩)
          (by rw [hclen])
      obtain ⟨hr1, hr2, hr3, hr4, hr5⟩ := ih _
        (buf.drop (min buf.length (b.capacity - b.wp))) hi1
        (by rw [List.length_drop]; omega)
      have hred : putLoopF (fuel + 1) b buf = putLoopF fuel
          (if b.capacity < b.size + min buf.length (b.capacity - b.wp) then
            ⟨copySlice b.mem b.wp (buf.take (min buf.length (b.capacity - b.wp))),
              (b.rp + (b.size + min buf.length (b.capacity - b.wp) - b.capacity)) % b.capacity,
              (b.wp + min buf.length (b.capacity - b.wp)) % b.capacity, b.capacity, b.overwrite⟩
          else
            ⟨copySlice b.mem b.wp (buf.take (min buf.length (b.capacity - b.wp))), b.rp,
              (b.wp + min buf.length (b.capacity - b.wp)) % b.capacity,
              b.size + min buf.length (b.capacity - b.wp), b.overwrite⟩)
          (buf.drop (min buf.length (b.capacity - b.wp))) := by
        simp only [putLoopF]
        rw [if_neg hz]
      rw [hred]
      refine ⟨hr1, hr2.trans hi2, hr3.trans hi3, ?_, ?_⟩
      · rw [hr4, hi4, hi2, List.length_drop, hclen]
        omega
      · rw [hr5, hi5, hi4, hi2, List.length_drop, hclen]
        have hcomp := drop_append_drop
          (b.contents ++ buf.take (min buf.length (b.capacity - b.wp)))
          (buf.drop (min buf.length (b.capacity - b.wp)))
          (b.size + min buf.length (b.capacity - b.wp) - b.capacity)
          (min (b.size + min buf.length (b.capacity - b.wp)) b.capacity +
            (buf.length - min buf.length (b.capacity - b.wp)) - b.capacity)
          (by simp only [List.length_append, contents_length, hclen]; omega)
        rw [hcomp, List.append_assoc, List.take_append_drop]
        congr 1
        omega

/-- Specification of `RingBuf::put` when `overwrite` is off: the accepted
prefix `buf.take (capacity - size)` is appended, nothing is dropped. -/
theorem put_spec_noov [Inhabited T] (b : RingBuf T) (buf : List T)
    (hInv : b.Inv) (hov : b.overwrite = false) :
    (put b buf).1.Inv ∧
    (put b buf).1.capacity = b.capacity ∧
    (put b buf).1.overwrite = b.overwrite ∧
    (put b buf).2 = (buf.take (b.capacity - b.size)).length ∧
    (put b buf).1.contents = b.contents ++ buf.take (b.capacity - b.size) := by
  have hlen : (buf.take (b.capacity - b.size)).length ≤ b.capacity - b.size := by
    rw [List.length_take]; omega
  have hdef : put b buf =
      (putLoopF (buf.take (b.capacity - b.size)).length b (buf.take (b.capacity - b.size)),
       (buf.take (b.capacity - b.size)).length) := by
    rw [put, hov]
    simp
  obtain ⟨hr1, hr2, hr3, hr4, hr5⟩ :=
    putLoopF_spec (buf.take (b.capacity - b.size)).length b
      (buf.take (b.capacity - b.size)) hInv le_rfl
  obtain ⟨h1, h2, h3⟩ := hInv
  refine ⟨by rw [hdef]; exact hr1, by rw [hdef]; exact hr2, by rw [hdef]; exact hr3,
    by rw [hdef], ?_⟩
  rw [hdef]
  show (putLoopF _ b _).contents = _
  rw [hr5, show b.size + (buf.take (b.capacity - b.size)).length - b.capacity = 0 from
    by omega, List.drop_zero]

/-- Specification of `RingBuf::put` when `overwrite` is on: everything is
written and the contents become the last `capacity` items. -/
theorem put_spec_ov [Inhabited T] (b : RingBuf T) (buf : List T)
    (hInv : b.Inv) (hov : b.overwrite = true) :
    (put b buf).1.Inv ∧
    (put b buf).1.capacity = b.capacity ∧
    (put b buf).1.overwrite = b.overwrite ∧
    (put b buf).2 = buf.length ∧
    (put b buf).1.contents = (b.contents ++ buf).drop (b.size + buf.length - b.capacity) := by
  have hdef : put b buf = (putLoopF buf.length b buf, buf.length) := by
    rw [put, hov]
    simp
  obtain ⟨hr1, hr2, hr3, hr4, hr5⟩ := putLoopF_spec buf.length b buf hInv le_rfl
  exact ⟨by rw [hdef]; exact hr1, by rw [hdef]; exact hr2, by rw [hdef]; exact hr3,
    by rw [hdef], by rw [hdef]; exact hr5⟩

theorem contents_getElem [Inhabited T] (b : RingBuf T) (i : Nat)
    (h : i < b.contents.length) :
    b.contents[i] = b.mem.getD ((b.rp + i) % b.capacity) default := by
  simp only [contents, List.getElem_map, List.getElem_range]

/-- The `get` copy loop reads the first `r` items of the logical contents
into the accumulator and drops them from the buffer. -/
theorem getLoopF_spec [Inhabited T] :
    ∀ (fuel : Nat) (b : RingBuf T) (r : Nat) (acc : List T), b.Inv → r ≤ fuel →
      r ≤ b.size →
      (getLoopF fuel b r acc).1.Inv ∧
      (getLoopF fuel b r acc).1.capacity = b.capacity ∧
      (getLoopF fuel b r acc).1.overwrite = b.overwrite ∧
      (getLoopF fuel b r acc).1.size = b.size - r ∧
      (getLoopF fuel b r acc).1.contents = b.contents.drop r ∧
      (getLoopF fuel b r acc).2 = acc ++ b.contents.take r := by
  intro fuel
  induction fuel with
  | zero =>
    intro b r acc hInv hf hr
    have hr0 : r = 0 := by omega
    subst hr0
    rw [show getLoopF 0 b 0 acc = (b, acc) from rfl]
    refine ⟨hInv, rfl, rfl, ?_, ?_, ?_⟩
    · show b.size = b.size - 0
      omega
    · show b.contents = b.contents.drop 0
      rw [List.drop_zero]
    · show acc = acc ++ b.contents.take 0
      rw [List.take_zero, List.append_nil]
  | succ fuel ih =>
    intro b r acc hInv hf hr
    obtain ⟨h1, h2, h3⟩ := hInv
    have hCpos : 0 < b.capacity := by omega
    have hcapmem : b.capacity = b.mem.length := rfl
    by_cases hz : min r (b.capacity - b.rp) = 0
    · have hr0 : r = 0 := by omega
      subst hr0
      have h0 : getLoopF (fuel + 1) b 0 acc = (b, acc) := by
        simp only [getLoopF]
        rw [if_pos hz]
      rw [h0]
      refine ⟨⟨h1, h2, h3⟩, rfl, rfl, ?_, ?_, ?_⟩
      · show b.size = b.size - 0
        omega
      · show b.contents = b.contents.drop 0
        rw [List.drop_zero]
      · show acc = acc ++ b.contents.take 0
        rw [List.take_zero, List.append_nil]
    · have hRle : min r (b.capacity - b.rp) ≤ r := by omega
      have hRcap : min r (b.capacity - b.rp) ≤ b.capacity - b.rp := by omega
      have hRpos : 0 < min r (b.capacity - b.rp) := by omega
      have hred : getLoopF (fuel + 1) b r acc = getLoopF fuel
          ⟨b.mem, (b.rp + min r (b.capacity - b.rp)) % b.capacity, b.wp,
            b.size - min r (b.capacity - b.rp), b.overwrite⟩
          (r - min r (b.capacity - b.rp))
          (acc ++ (b.mem.drop b.rp).take (min r (b.capacity - b.rp))) := by
        simp only [getLoopF]
        rw [if_neg hz]
      -- the piece read in this iteration is a prefix of the contents
      have hpiece : (b.mem.drop b.rp).take (min r (b.capacity - b.rp)) =
          b.contents.take (min r (b.capacity - b.rp)) := by
        apply List.ext_getElem
        · simp [contents_length, capacity]
          omega
        · intro i hi1 hi2
          simp only [List.length_take, List.length_drop] at hi1
          have hiR : i < min r (b.capacity - b.rp) := by omega
          simp only [List.getElem_take, List.getElem_drop]
          rw [contents_getElem b i (by rw [contents_length]; omega)]
          have hmod : (b.rp + i) % b.capacity = b.rp + i := by
            apply Nat.mod_eq_of_lt
            omega
          rw [hmod, List.getD_eq_getElem _ _ (by omega)]
      -- invariant for the intermediate state
      have hInv1 : RingBuf.Inv (T := T)
          ⟨b.mem, (b.rp + min r (b.capacity - b.rp)) % b.capacity, b.wp,
            b.size - min r (b.capacity - b.rp), b.overwrite⟩ := by
        refine ⟨Nat.mod_lt _ hCpos, by simp [capacity]; omega, ?_⟩
        show b.wp = ((b.rp + min r (b.capacity - b.rp)) % b.capacity +
          (b.size - min r (b.capacity - b.rp))) % b.mem.length
        rw [← hcapmem, Nat.mod_add_mod]
        rw [show b.rp + min r (b.capacity - b.rp) + (b.size - min r (b.capacity - b.rp)) =
          b.rp + b.size from by omega]
        exact h3
      -- contents of the intermediate state
      have hcont1 : RingBuf.contents (T := T)
          ⟨b.mem, (b.rp + min r (b.capacity - b.rp)) % b.capacity, b.wp,
            b.size - min r (b.capacity - b.rp), b.overwrite⟩ =
          b.contents.drop (min r (b.capacity - b.rp)) := by
        rw [contents, drop_eq_range_map, contents_length]
        apply List.map_congr_left
        intro j hj
        rw [List.mem_range] at hj
        have hj2 : j < b.size - min r (b.capacity - b.rp) := hj
        show b.mem.getD _ default = b.contents.getD _ default
        rw [contents, getD_range_map _ _ _ (by omega)]
        show b.mem.getD (((b.rp + min r (b.capacity - b.rp)) % b.capacity + j) %
          b.mem.length) default = _
        rw [← hcapmem, Nat.mod_add_mod,
          show b.rp + min r (b.capacity - b.rp) + j =
            b.rp + (min r (b.capacity - b.rp) + j) from by omega]
      obtain ⟨hg1, hg2, hg3, hg4, hg5, hg6⟩ := ih
        ⟨b.mem, (b.rp + min r (b.capacity - b.rp)) % b.capacity, b.wp,
          b.size - min r (b.capacity - b.rp), b.overwrite⟩
        (r - min r (b.capacity - b.rp))
        (acc ++ (b.mem.drop b.rp).take (min r (b.capacity - b.rp)))
        hInv1 (by omega) (by simp [capacity]; omega)
      rw [hred]
      refine ⟨hg1, hg2, hg3, ?_, ?_, ?_⟩
      · rw [hg4]
        simp only [capacity]
        omega
      · rw [hg5, hcont1, List.drop_drop]
        congr 1
        omega
      · rw [hg6, hcont1, hpiece, List.append_assoc]
        congr 1
        conv_rhs => rw [show r =
          min r (b.capacity - b.rp) + (r - min r (b.capacity - b.rp)) from by omega]
        rw [List.take_add]

/-- Specification of `RingBuf::get`: it returns the first `min n size`
items of the contents and removes them. -/
theorem get_spec [Inhabited T] (b : RingBuf T) (n : Nat) (hInv : b.Inv) :
    (get b n).1.Inv ∧
    (get b n).1.capacity = b.capacity ∧
    (get b n).1.overwrite = b.overwrite ∧
    (get b n).1.size = b.size - min n b.size ∧
    (get b n).1.contents = b.contents.drop (min n b.size) ∧
    (get b n).2 = b.contents.take (min n b.size) := by
  obtain ⟨hg1, hg2, hg3, hg4, hg5, hg6⟩ :=
    getLoopF_spec (min n b.size) b (min n b.size) [] hInv le_rfl (by omega)
  exact ⟨hg1, hg2, hg3, hg4, hg5, by rw [get, hg6, List.nil_append]⟩

/-- Without `overwrite`, a sequence of puts appends exactly the items it
reports as written. -/
theorem putAll_spec [Inhabited T] :
    ∀ (ws : List (List T)) (b : RingBuf T), b.Inv → b.overwrite = false →
      (putAll b ws).1.Inv ∧
      (putAll b ws).1.capacity = b.capacity ∧
      (putAll b ws).1.overwrite = false ∧
      (putAll b ws).1.contents = b.contents ++ (putAll b ws).2 := by
  intro ws
  induction ws with
  | nil =>
    intro b hInv hov
    refine ⟨hInv, rfl, hov, ?_⟩
    show b.contents = b.contents ++ ([] : List T)
    rw [List.append_nil]
  | cons w ws ih =>
    intro b hInv hov
    obtain ⟨hp1, hp2, hp3, hp4, hp5⟩ := put_spec_noov b w hInv hov
    obtain ⟨hq1, hq2, hq3, hq4⟩ := ih (put b w).1 hp1 (hp3.trans hov)
    have hwr : w.take (put b w).2 = w.take (b.capacity - b.size) := by
      rw [hp4, List.length_take, ← List.take_take, List.take_length]
    refine ⟨hq1, hq2.trans hp2, hq3, ?_⟩
    show (putAll (put b w).1 ws).1.contents = _ ++ (w.take (put b w).2 ++ _)
    rw [hq4, hp5, hwr, List.append_assoc]

/-- If the destination sizes add up to at least the buffered amount, a
sequence of gets drains and returns the whole contents. -/
theorem getAll_drain [Inhabited T] :
    ∀ (ns : List Nat) (b : RingBuf T), b.Inv → b.size ≤ ns.sum →
      (getAll b ns).2 = b.contents := by
  intro ns
  induction ns with
  | nil =>
    intro b hInv hle
    have h0 : b.size = 0 := by simp at hle; omega
    have : b.contents.length = 0 := by rw [contents_length, h0]
    rw [show (getAll b []).2 = [] from rfl, List.length_eq_zero.mp this]
  | cons n ns ih =>
    intro b hInv hle
    obtain ⟨hg1, hg2, hg3, hg4, hg5, hg6⟩ := get_spec b n hInv
    have hrest : (getAll (get b n).1 ns).2 = (get b n).1.contents := by
      apply ih _ hg1
      rw [hg4]
      simp only [List.sum_cons] at hle
      omega
    show (get b n).2 ++ (getAll (get b n).1 ns).2 = b.contents
    rw [hrest, hg5, hg6, List.take_append_drop]

end RingBuf

/-- C6: for a `RingBuf` without `overwrite`, any chunking of puts followed
by gets requesting at least the written total returns exactly the written
sequence, in order.  The initial backing store `mem0` is arbitrary
(`RingBuf::new` leaves it uninitialised); the fresh state has
`rp = wp = size = 0`. -/
theorem ringbuf_fifo_round_trip {T : Type} [Inhabited T] (mem0 : List T)
    (ws : List (List T)) (ns : List Nat) (hC : 0 < mem0.length)
    (hW : (RingBuf.putAll ⟨mem0, 0, 0, 0, false⟩ ws).2.length ≤ mem0.length)
    (hsum : (RingBuf.putAll ⟨mem0, 0, 0, 0, false⟩ ws).2.length ≤ ns.sum) :
    (RingBuf.getAll (RingBuf.putAll ⟨mem0, 0, 0, 0, false⟩ ws).1 ns).2 =
      (RingBuf.putAll ⟨mem0, 0, 0, 0, false⟩ ws).2 := by
  have hInv : RingBuf.Inv (T := T) ⟨mem0, 0, 0, 0, false⟩ := by
    refine ⟨?_, ?_, ?_⟩
    · show 0 < mem0.length
      exact hC
    · show 0 ≤ mem0.length
      omega
    · show 0 = (0 + 0) % mem0.length
      simp
  obtain ⟨hq1, hq2, hq3, hq4⟩ := RingBuf.putAll_spec ws ⟨mem0, 0, 0, 0, false⟩ hInv rfl
  have hnil : RingBuf.contents (T := T) ⟨mem0, 0, 0, 0, false⟩ = [] := rfl
  rw [hnil, List.nil_append] at hq4
  have hsize : (RingBuf.putAll ⟨mem0, 0, 0, 0, false⟩ ws).1.size =
      (RingBuf.putAll ⟨mem0, 0, 0, 0, false⟩ ws).2.length := by
    rw [← RingBuf.contents_length, hq4]
  rw [RingBuf.getAll_drain ns _ hq1 (by rw [hsize]; exact hsum), hq4]

/-- Closed witness for C6 at a concrete instance: capacity 2, writes
chunked as [1) then [2], reads chunked as 1 and 1. -/
theorem ringbuf_fifo_round_trip_witness :
    0 < ([0, 0] : List Nat).length ∧
    (RingBuf.putAll ⟨[0, 0], 0, 0, 0, false⟩ [[1], [2]]).2.length ≤ ([0, 0] : List Nat).length ∧
    (RingBuf.putAll ⟨[0, 0], 0, 0, 0, false⟩ [[1], [2]]).2.length ≤ ([1, 1] : List Nat).sum ∧
    (RingBuf.getAll (RingBuf.putAll ⟨[0, 0], 0, 0, 0, false⟩ [[1], [2]]).1 [1, 1]).2 =
      (RingBuf.putAll ⟨[0, 0], 0, 0, 0, false⟩ [[1], [2]]).2 :=
  ⟨by decide, by decide, by decide,
    ringbuf_fifo_round_trip [0, 0] [[1], [2]] [1, 1] (by decide) (by decide) (by decide)⟩

/-- C7: with `overwrite` on, a single put of a sequence `s` longer than the
capacity accepts all of it, and a get with a destination of the capacity
size returns exactly the last `capacity` items of `s`, in order. -/
theorem ringbuf_overwrite_keeps_last {T : Type} [Inhabited T] (mem0 : List T)
    (s : List T) (hC : 0 < mem0.length) (hlong : mem0.length < s.length) :
    (RingBuf.put ⟨mem0, 0, 0, 0, true⟩ s).2 = s.length ∧
    (RingBuf.get (RingBuf.put ⟨mem0, 0, 0, 0, true⟩ s).1 mem0.length).2 =
      s.drop (s.length - mem0.length) := by
  have hInv : RingBuf.Inv (T := T) ⟨mem0, 0, 0, 0, true⟩ := by
    refine ⟨?_, ?_, ?_⟩
    · show 0 < mem0.length
      exact hC
    · show 0 ≤ mem0.length
      omega
    · show 0 = (0 + 0) % mem0.length
      simp
  obtain ⟨hp1, hp2, hp3, hp4, hp5⟩ := RingBuf.put_spec_ov ⟨mem0, 0, 0, 0, true⟩ s hInv rfl
  have hnil : RingBuf.contents (T := T) ⟨mem0, 0, 0, 0, true⟩ = [] := rfl
  rw [hnil, List.nil_append] at hp5
  have hp5a : (RingBuf.put ⟨mem0, 0, 0, 0, true⟩ s).1.contents =
      s.drop (0 + s.length - mem0.length) := hp5
  rw [Nat.zero_add] at hp5a
  obtain ⟨hg1, hg2, hg3, hg4, hg5, hg6⟩ :=
    RingBuf.get_spec (RingBuf.put ⟨mem0, 0, 0, 0, true⟩ s).1 mem0.length hp1
  refine ⟨hp4, ?_⟩
  rw [hg6, hp5a]
  have hlen : (s.drop (s.length - mem0.length)).length = mem0.length := by
    rw [List.length_drop]; omega
  have hsz : (RingBuf.put ⟨mem0, 0, 0, 0, true⟩ s).1.size = mem0.length := by
    rw [← RingBuf.contents_length, hp5a, hlen]
  rw [hsz, Nat.min_self]
  exact List.take_of_length_le (le_of_eq hlen)

/-- Closed witness for C7: the literal `test_ringbuf_overwrite` scenario,
capacity 5 and the 44-byte test string; the read returns the bytes of
"iting". -/
theorem ringbuf_overwrite_keeps_last_witness :
    0 < ([0, 0, 0, 0, 0] : List Nat).length ∧
    ([0, 0, 0, 0, 0] : List Nat).length < testMessage.length ∧
    (RingBuf.put ⟨[0, 0, 0, 0, 0], 0, 0, 0, true⟩ testMessage).2 = testMessage.length ∧
    (RingBuf.get (RingBuf.put ⟨[0, 0, 0, 0, 0], 0, 0, 0, true⟩ testMessage).1 5).2 =
      [105, 116, 105, 110, 103] := by
  obtain ⟨h1, h2⟩ := ringbuf_overwrite_keeps_last [0, 0, 0, 0, 0] testMessage
    (by decide) (by decide)
  exact ⟨by decide, by decide, h1, by
    have h3 : testMessage.drop (testMessage.length - ([0,0,0,0,0] : List Nat).length) =
        [105, 116, 105, 110, 103] := by decide
    rw [← h3]
    exact h2⟩

/-! ### Stream claim theorems -/

/-- C1 (failing evaluation): on a `block_read` stream of capacity 1, a
reader entering `get` with a 1-element destination while the buffer is
empty goes to sleep; a writer then puts one item and the stream is still
open (`write_closed = false`, `size = 1`); yet the woken reader returns
`Ok(0)` with no data, because its destination slice was truncated to
length 0 before it slept.  This contradicts the claim that such a reader
returns the items written and that `Ok(0)` is returned only after the
writer closes. -/
theorem get_wake_returns_zero_while_open :
    StreamBuf.getStep (⟨[0], 0, 0, 0, false, true, false, false, false⟩ : StreamBuf Nat) 1 =
      StreamBuf.GetOut.waiting ∧
    StreamBuf.putStep (⟨[0], 0, 0, 0, false, true, false, false, false⟩ : StreamBuf Nat) [7] =
      StreamBuf.PutOut.ret ⟨[7], 0, 0, 1, false, true, false, false, false⟩ 1 ∧
    (⟨[7], 0, 0, 1, false, true, false, false, false⟩ : StreamBuf Nat).write_closed = false ∧
    (⟨[7], 0, 0, 1, false, true, false, false, false⟩ : StreamBuf Nat).size = 1 ∧
    StreamBuf.getWake (⟨[7], 0, 0, 1, false, true, false, false, false⟩ : StreamBuf Nat) =
      StreamBuf.GetOut.ret ⟨[7], 0, 0, 1, false, true, false, false, false⟩ [] :=
  ⟨by decide, by decide, rfl, rfl, by decide⟩

/-- C2 (counterexample): a writer blocked in `put` against a full
capacity-1 stream is not unblocked into a Closed error by the reader
dropping: after `dropReader` sets `read_closed`, the woken writer
re-checks only `size == capacity` and goes back to sleep. -/
theorem put_blocked_after_reader_drop :
    StreamBuf.putStep (⟨[9], 0, 0, 1, false, false, true, false, false⟩ : StreamBuf Nat) [5] =
      StreamBuf.PutOut.waiting [] ∧
    StreamBuf.dropReader (⟨[9], 0, 0, 1, false, false, true, false, false⟩ : StreamBuf Nat) =
      ⟨[9], 0, 0, 1, false, false, true, true, false⟩ ∧
    StreamBuf.putWake (⟨[9], 0, 0, 1, false, false, true, true, false⟩ : StreamBuf Nat) [] =
      StreamBuf.PutOut.waiting [] ∧
    StreamBuf.PutOut.waiting ([] : List Nat) ≠ StreamBuf.PutOut.errClosed :=
  ⟨by decide, by decide, by decide, by decide⟩

/-- C2 (amended): dropping an endpoint sets that endpoint's closed flag
and broadcasts; a reader blocked in `get` then wakes, observes
`write_closed` on an empty buffer and returns EOF (`Ok(0)`); but a writer
blocked in `put` against a full buffer re-checks only `size == capacity`
when woken — it never observes `read_closed` and remains blocked rather
than returning a Closed error. -/
theorem stream_drop_closure (T : Type) (s : StreamBuf T) (frozen : List T) :
    (StreamBuf.dropReader s).read_closed = true ∧
    (StreamBuf.dropWriter s).write_closed = true ∧
    (s.size = 0 →
      StreamBuf.getWake (StreamBuf.dropWriter s) =
        StreamBuf.GetOut.ret (StreamBuf.dropWriter s) []) ∧
    (s.size = s.capacity →
      StreamBuf.putWake (StreamBuf.dropReader s) frozen =
        StreamBuf.PutOut.waiting frozen) := by
  refine ⟨rfl, rfl, ?_, ?_⟩
  · intro h
    have hsz : (StreamBuf.dropWriter s).size = 0 := h
    rw [StreamBuf.getWake, if_pos hsz]
    rw [if_pos (show (StreamBuf.dropWriter s).write_closed = true from rfl)]
  · intro h
    have hsz : (StreamBuf.dropReader s).size = (StreamBuf.dropReader s).capacity := h
    rw [StreamBuf.putWake, if_pos hsz]

/-- Closed witness for the amended C2 at a concrete state (capacity 0, so
the buffer is simultaneously empty and full and both wake cases fire). -/
theorem stream_drop_closure_witness :
    (StreamBuf.dropReader (⟨[], 0, 0, 0, false, true, false, false, false⟩ :
      StreamBuf Nat)).read_closed = true ∧
    (StreamBuf.dropWriter (⟨[], 0, 0, 0, false, true, false, false, false⟩ :
      StreamBuf Nat)).write_closed = true ∧
    StreamBuf.getWake (StreamBuf.dropWriter
      (⟨[], 0, 0, 0, false, true, false, false, false⟩ : StreamBuf Nat)) =
      StreamBuf.GetOut.ret (StreamBuf.dropWriter
        ⟨[], 0, 0, 0, false, true, false, false, false⟩) [] ∧
    StreamBuf.putWake (StreamBuf.dropReader
      (⟨[], 0, 0, 0, false, true, false, false, false⟩ : StreamBuf Nat)) [] =
      StreamBuf.PutOut.waiting [] :=
  ⟨(stream_drop_closure Nat ⟨[], 0, 0, 0, false, true, false, false, false⟩ []).1,
   (stream_drop_closure Nat ⟨[], 0, 0, 0, false, true, false, false, false⟩ []).2.1,
   (stream_drop_closure Nat ⟨[], 0, 0, 0, false, true, false, false, false⟩ []).2.2.1 rfl,
   (stream_drop_closure Nat ⟨[], 0, 0, 0, false, true, false, false, false⟩ []).2.2.2 rfl⟩

/-- C10: when the stream was created with `block_read = false`,
`StreamReader::peek` fails with WouldBlock unconditionally — even when
the buffer holds data — and a peek can only ever return a view when
`block_read = true`. -/
theorem peek_nonblocking_always_wouldblock (T : Type) (s : StreamBuf T) :
    (s.block_read = false → StreamBuf.peekStep s = StreamBuf.PeekOut.errWouldBlock) ∧
    (StreamBuf.peekStep s = StreamBuf.PeekOut.view → s.block_read = true) := by
  constructor
  · intro h
    rw [StreamBuf.peekStep, h]
    simp
  · intro h
    by_contra hb
    simp only [Bool.not_eq_true] at hb
    rw [StreamBuf.peekStep, hb] at h
    simp at h

/-- Closed witness for C10: a non-blocking stream whose buffer holds two
items still gets WouldBlock from `peek`. -/
theorem peek_nonblocking_always_wouldblock_witness :
    (⟨[3, 4], 0, 0, 2, false, false, false, false, false⟩ :
        StreamBuf Nat).block_read = false ∧
    (⟨[3, 4], 0, 0, 2, false, false, false, false, false⟩ : StreamBuf Nat).size = 2 ∧
    StreamBuf.peekStep (⟨[3, 4], 0, 0, 2, false, false, false, false, false⟩ :
        StreamBuf Nat) = StreamBuf.PeekOut.errWouldBlock :=
  ⟨rfl, rfl,
    (peek_nonblocking_always_wouldblock Nat
      ⟨[3, 4], 0, 0, 2, false, false, false, false, false⟩).1 rfl⟩

/-- C3 (failing evaluation): with the asymmetric taps `[1, 2]` over ℤ and
the single input `[1]`, the source filter emits `[2]` — `taps[1]`
multiplies the newest sample — while the canonical convolution of the
spec emits `[1]`.  The source convolves with the taps reversed. -/
theorem fir_filter_reverses_taps :
    (FIRFilter.filter (FIRFilter.new ([1, 2] : List ℤ)) [1]).2 = [2] ∧
    canonicalFIR ([1, 2] : List ℤ) [1] = [1] ∧
    ([2] : List ℤ) ≠ [1] :=
  ⟨by decide, by decide, by decide⟩

/-- C9 (counterexample): at cutoff 1/4 with 2 taps, tap 0 of the source
is `sinc 0 = 1` times the window (the integer division gives centring
offset `(2-1)/2 = 0`), while the spec formula centres at the real
`(2-1)/2 = 1/2` and yields `sinc (-1/4)` times the window; the two
differ because `sin (π/4) ≠ π/4`. -/
theorem lowpass_taps_offset_counterexample :
    (lowpass_taps (1/4) 2).getD 0 0 ≠ (lowpass_taps_spec_form (1/4) 2).getD 0 0 := by
  have hL : (lowpass_taps (1/4) 2).getD 0 0 = 0.08 := by
    rw [lowpass_taps, getD_range_map_any _ _ _ _ (by omega)]
    rw [show (2 * (1/4) * (((0 : Nat) : ℝ) - (((2 - 1) / 2 : Nat) : ℝ))) = 0 from by
      norm_num]
    rw [sinc, if_pos rfl]
    rw [show (2 * π * (((0 : Nat) : ℝ)) / (((2 : Nat) : ℝ) - 1)) = 0 from by
      push_cast
      ring]
    rw [Real.cos_zero]
    norm_num
  have hR : (lowpass_taps_spec_form (1/4) 2).getD 0 0 =
      Real.sin (π/4) / (π/4) * 0.08 := by
    rw [lowpass_taps_spec_form, getD_range_map_any _ _ _ _ (by omega)]
    rw [show (2 * (1/4) * (((0 : Nat) : ℝ) - (((2 : Nat) : ℝ) - 1) / 2)) = -(1/4) from by
      push_cast
      ring]
    rw [sinc, if_neg (by norm_num)]
    rw [show (-(1/4) : ℝ) * π = -(π/4) from by ring]
    rw [Real.sin_neg, neg_div_neg_eq]
    rw [show (2 * π * (((0 : Nat) : ℝ)) / (((2 : Nat) : ℝ) - 1)) = 0 from by
      push_cast
      ring]
    rw [Real.cos_zero]
    norm_num
  have hlt : Real.sin (π/4) / (π/4) < 1 := by
    rw [div_lt_one (by positivity)]
    rw [Real.sin_pi_div_four]
    have h2 : Real.sqrt 2 < 3/2 := by
      rw [show (3:ℝ)/2 = Real.sqrt ((3/2)^2) from (Real.sqrt_sq (by norm_num)).symm]
      apply Real.sqrt_lt_sqrt (by norm_num)
      norm_num
    have h3 : (3 : ℝ) < π := Real.pi_gt_three
    calc Real.sqrt 2 / 2 < (3/2) / 2 := by linarith
      _ = 3/4 := by norm_num
      _ < π/4 := by linarith
  rw [hL, hR]
  intro heq
  linarith [hlt]

/-- C9 (amended): the tap generator returns
`taps[n] = sinc(2c·(n − ⌊M/2⌋)) · (0.54 − 0.46·cos(2π·n/M))` with
`M = N − 1` and the centring offset computed by integer (floor)
division; for odd `N` the floor is exact and this coincides with the
claimed `M/2` formula. -/
theorem lowpass_taps_formula (c : ℝ) (N n : Nat) (hn : n < N) :
    ((lowpass_taps c N).getD n 0 =
      sinc (2 * c * ((n : ℝ) - (((N - 1) / 2 : Nat) : ℝ))) *
        (0.54 - 0.46 * Real.cos (2 * π * (n : ℝ) / ((N : ℝ) - 1)))) ∧
    (N % 2 = 1 → lowpass_taps c N = lowpass_taps_spec_form c N) := by
  constructor
  · rw [lowpass_taps, getD_range_map_any _ _ _ _ hn]
  · intro hodd
    obtain ⟨k, hk⟩ : ∃ k, N = 2 * k + 1 := ⟨N / 2, by omega⟩
    rw [lowpass_taps, lowpass_taps_spec_form]
    apply List.map_congr_left
    intro j hj
    have hhalf : (((N - 1) / 2 : Nat) : ℝ) = ((N : ℝ) - 1) / 2 := by
      subst hk
      have h1 : (2 * k + 1 - 1) / 2 = k := by omega
      rw [h1]
      push_cast
      ring
    rw [hhalf]

/-- Closed witness for the amended C9 at cutoff 1/4, 3 taps, index 1:
the centre tap is `sinc 0` times the window, and `N = 3` is odd so the
source and spec formulas agree on the whole tap list. -/
theorem lowpass_taps_formula_witness :
    (1 < 3 ∧
      (lowpass_taps (1/4) 3).getD 1 0 =
        sinc (2 * (1/4) * ((1 : ℝ) - (((3 - 1) / 2 : Nat) : ℝ))) *
          (0.54 - 0.46 * Real.cos (2 * π * (1 : ℝ) / ((3 : ℝ) - 1)))) ∧
    (3 % 2 = 1 ∧ lowpass_taps (1/4) 3 = lowpass_taps_spec_form (1/4) 3) :=
  ⟨⟨by omega, by
      have h := (lowpass_taps_formula (1/4) 3 1 (by omega)).1
      simpa using h⟩,
   ⟨rfl, (lowpass_taps_formula (1/4) 3 1 (by omega)).2 rfl⟩⟩

theorem rem_euclid_mem (x y : ℝ) (hy : 0 < y) :
    0 ≤ rem_euclid x y ∧ rem_euclid x y < y := by
  have h : rem_euclid x y = y * Int.fract (x / y) := by
    rw [rem_euclid, Int.fract]
    field_simp
  constructor
  · rw [h]
    exact mul_nonneg hy.le (Int.fract_nonneg _)
  · rw [h]
    calc y * Int.fract (x / y) < y * 1 :=
          mul_lt_mul_of_pos_left (Int.fract_lt_one _) hy
      _ = y := mul_one y

theorem phaseSeq_mem (omega : ℝ) :
    ∀ (k : Nat) (φ : ℝ), 0 ≤ phaseSeq omega φ (k + 1) ∧ phaseSeq omega φ (k + 1) < 2 * π := by
  intro k
  induction k with
  | zero =>
    intro φ
    show 0 ≤ phaseSeq omega (rem_euclid (φ + omega) (2 * π)) 0 ∧ _
    rw [phaseSeq]
    exact rem_euclid_mem _ _ Real.two_pi_pos
  | succ k ih =>
    intro φ
    show 0 ≤ phaseSeq omega (rem_euclid (φ + omega) (2 * π)) (k + 1) ∧ _
    exact ih _

theorem mixer_filterReal_get (omega : ℝ) :
    ∀ (xs : List ℝ) (φ : ℝ) (n : Nat), n < xs.length →
      (MixerFilter.filterReal ⟨φ, omega⟩ xs).2.get? n =
        some ((xs.getD n 0 : ℝ) *
          (⟨Real.cos (phaseSeq omega φ n), -Real.sin (phaseSeq omega φ n)⟩ : ℂ)) := by
  intro xs
  induction xs with
  | nil =>
    intro φ n hn
    simp at hn
  | cons x rest ih =>
    intro φ n hn
    match n with
    | 0 =>
      show some _ = _
      rw [show phaseSeq omega φ 0 = φ from rfl]
      congr 1
      apply Complex.ext
      · show x * Real.cos φ = _
        simp [Complex.mul_re]
      · show -(x * Real.sin φ) = _
        simp [Complex.mul_im]
    | n + 1 =>
      show (MixerFilter.filterReal ⟨rem_euclid (φ + omega) (2 * π), omega⟩ rest).2.get? n = _
      rw [ih _ n (by simpa using hn)]
      rfl

theorem mixer_filterComplex_get (omega : ℝ) :
    ∀ (zs : List ℂ) (φ : ℝ) (n : Nat), n < zs.length →
      (MixerFilter.filterComplex ⟨φ, omega⟩ zs).2.get? n =
        some (zs.getD n 0 *
          (⟨Real.cos (phaseSeq omega φ n), Real.sin (phaseSeq omega φ n)⟩ : ℂ)) := by
  intro zs
  induction zs with
  | nil =>
    intro φ n hn
    simp at hn
  | cons z rest ih =>
    intro φ n hn
    match n with
    | 0 => rfl
    | n + 1 =>
      show (MixerFilter.filterComplex ⟨rem_euclid (φ + omega) (2 * π), omega⟩ rest).2.get? n = _
      rw [ih _ n (by simpa using hn)]
      rfl

/-- C8: the mixer with step `ω = 2π·f/R` emits, for real input,
`x·(cos φ − i·sin φ)` (downshift by `e^(−iφ)`), and for complex input,
`z·(cos φ + i·sin φ)` (upshift by `e^(+iφ)`); the phase after every
sample is the previous phase plus ω reduced Euclidean-mod 2π, and it
lies in `[0, 2π)` after every operation (as does the initial phase 0). -/
theorem mixer_spec (R : Nat) (f : ℝ) (xs : List ℝ) (zs : List ℂ) (n m : Nat)
    (hn : n < xs.length) (hm : m < zs.length) :
    (MixerFilter.new R f).omega = 2 * π * f / (R : ℝ) ∧
    ((MixerFilter.new R f).filterReal xs).2.get? n =
      some ((xs.getD n 0 : ℝ) *
        (⟨Real.cos (phaseSeq (MixerFilter.new R f).omega 0 n),
          -Real.sin (phaseSeq (MixerFilter.new R f).omega 0 n)⟩ : ℂ)) ∧
    ((MixerFilter.new R f).filterComplex zs).2.get? m =
      some (zs.getD m 0 *
        (⟨Real.cos (phaseSeq (MixerFilter.new R f).omega 0 m),
          Real.sin (phaseSeq (MixerFilter.new R f).omega 0 m)⟩ : ℂ)) ∧
    (∀ k, 0 ≤ phaseSeq (MixerFilter.new R f).omega 0 (k + 1) ∧
      phaseSeq (MixerFilter.new R f).omega 0 (k + 1) < 2 * π) ∧
    (0 ≤ (MixerFilter.new R f).phase ∧ (MixerFilter.new R f).phase < 2 * π) := by
  refine ⟨rfl, ?_, ?_, fun k => phaseSeq_mem _ k 0, ?_⟩
  · exact mixer_filterReal_get _ xs 0 n hn
  · exact mixer_filterComplex_get _ zs 0 m hm
  · constructor
    · exact le_refl (0 : ℝ)
    · exact Real.two_pi_pos

/-- Closed witness for C8: rate 1, shift 0, one real sample `1` and one
complex sample `i`; the first outputs are `cos 0 − i sin 0 = 1` and
`i·(cos 0 + i sin 0) = i`. -/
theorem mixer_spec_witness :
    0 < ([ (1 : ℝ) ]).length ∧ 0 < ([ (Complex.I : ℂ) ]).length ∧
    ((MixerFilter.new 1 0).filterReal [1]).2.get? 0 =
      some (((1 : ℝ) : ℝ) *
        (⟨Real.cos (phaseSeq (MixerFilter.new 1 0).omega 0 0),
          -Real.sin (phaseSeq (MixerFilter.new 1 0).omega 0 0)⟩ : ℂ)) ∧
    ((MixerFilter.new 1 0).filterComplex [Complex.I]).2.get? 0 =
      some (Complex.I *
        (⟨Real.cos (phaseSeq (MixerFilter.new 1 0).omega 0 0),
          Real.sin (phaseSeq (MixerFilter.new 1 0).omega 0 0)⟩ : ℂ)) := by
  obtain ⟨h1, h2, h3, h4, h5⟩ :=
    mixer_spec 1 0 [1] [Complex.I] 0 0 (by simp) (by simp)
  exact ⟨by simp, by simp, by simpa using h2, by simpa using h3⟩

/-- C5 (failing evaluation): at equal rates (`new(1, 1, 2)`, so U = D = 1)
the resampler applied to `[1]` emits the prototype's tap 0 (= 0.08),
while `FIRFilter` built from the same prototype taps emits tap 1 (= 0):
the two disagree because `FIRFilter` convolves with the taps reversed
and the 2-tap prototype is not palindromic. -/
theorem resampler_differs_from_fir_at_unit_ratio :
    (RationalResampler.new 1 1 2).up = 1 ∧
    (RationalResampler.new 1 1 2).down = 1 ∧
    ((RationalResampler.new 1 1 2).filter [1]).2 = [(0.08 : ℝ)] ∧
    ((FIRFilter.new (lowpass_taps (0.5 / ((max (1 : Nat) 1 : Nat) : ℝ)) 2)).filter
      [1]).2 = [(0 : ℝ)] ∧
    ((RationalResampler.new 1 1 2).filter [1]).2 ≠
      ((FIRFilter.new (lowpass_taps (0.5 / ((max (1 : Nat) 1 : Nat) : ℝ)) 2)).filter
        [1]).2 := by
  have hc : (0.5 / ((max (1 : Nat) 1 : Nat) : ℝ)) = 1/2 := by norm_num
  have hg0 : (lowpass_taps (0.5 / ((max (1 : Nat) 1 : Nat) : ℝ)) 2).getD 0 0 =
      (0.08 : ℝ) := by
    rw [hc, lowpass_taps, getD_range_map_any _ _ _ _ (by omega)]
    rw [show (2 * ((1:ℝ)/2) * (((0 : Nat) : ℝ) - (((2 - 1) / 2 : Nat) : ℝ))) = 0 from by
      norm_num]
    rw [sinc, if_pos rfl]
    rw [show (2 * π * (((0 : Nat) : ℝ)) / (((2 : Nat) : ℝ) - 1)) = 0 from by
      push_cast
      ring]
    rw [Real.cos_zero]
    norm_num
  have hg1 : (lowpass_taps (0.5 / ((max (1 : Nat) 1 : Nat) : ℝ)) 2).getD 1 0 =
      (0 : ℝ) := by
    rw [hc, lowpass_taps, getD_range_map_any _ _ _ _ (by omega)]
    rw [show (2 * ((1:ℝ)/2) * (((1 : Nat) : ℝ) - (((2 - 1) / 2 : Nat) : ℝ))) = 1 from by
      norm_num]
    rw [sinc, if_neg one_ne_zero, one_mul, Real.sin_pi, zero_div, zero_mul]
  have hstep : ((RationalResampler.new 1 1 2).filter [1]).2 =
      [0 + (lowpass_taps (0.5 / ((max (1 : Nat) 1 : Nat) : ℝ)) 2).getD 0 0 * 1 +
        (lowpass_taps (0.5 / ((max (1 : Nat) 1 : Nat) : ℝ)) 2).getD 1 0 * 0] := rfl
  have hfs : ((FIRFilter.new (lowpass_taps (0.5 / ((max (1 : Nat) 1 : Nat) : ℝ)) 2)).filter
      [1]).2 =
      [0 + (lowpass_taps (0.5 / ((max (1 : Nat) 1 : Nat) : ℝ)) 2).getD 0 0 * 0 +
        (lowpass_taps (0.5 / ((max (1 : Nat) 1 : Nat) : ℝ)) 2).getD 1 0 * 1] := rfl
  have hres : ((RationalResampler.new 1 1 2).filter [1]).2 = [(0.08 : ℝ)] := by
    rw [hstep, hg0, hg1]
    norm_num
  have hfir : ((FIRFilter.new (lowpass_taps (0.5 / ((max (1 : Nat) 1 : Nat) : ℝ)) 2)).filter
      [1]).2 = [(0 : ℝ)] := by
    rw [hfs, hg0, hg1]
    norm_num
  refine ⟨rfl, rfl, hres, hfir, ?_⟩
  rw [hres, hfir]
  intro h
  have := List.head_eq_of_cons_eq h
  norm_num at this

/-! ### Characterisation of the polyphase decomposition (for C4) -/

theorem getD_set_self {X : Type} (l : List X) (i : Nat) (a d : X) (h : i < l.length) :
    (l.set i a).getD i d = a := by
  rw [List.getD_eq_getElem _ _ (by simpa using h)]
  simp

theorem getD_set_ne {X : Type} (l : List X) (i j : Nat) (a d : X) (h : i ≠ j) :
    (l.set i a).getD j d = l.getD j d := by
  by_cases hj : j < l.length
  · rw [List.getD_eq_getElem _ _ (by simpa using hj), List.getD_eq_getElem _ _ hj]
    exact List.getElem_set_ne h _
  · rw [List.getD_eq_default _ _ (by simp; omega), List.getD_eq_default _ _ (by omega)]

theorem getD_replicate_nil (n u : Nat) :
    (List.replicate n ([] : List ℝ)).getD u [] = [] := by
  by_cases h : u < n
  · rw [List.getD_eq_getElem _ _ (by simpa using h)]
    simp
  · rw [List.getD_eq_default _ _ (by simp; omega)]

theorem getD_replicate_zero (k m : Nat) : (List.replicate k (0 : ℝ)).getD m 0 = 0 := by
  by_cases h : m < k
  · rw [List.getD_eq_getElem _ _ (by simpa using h)]
    simp
  · rw [List.getD_eq_default _ _ (by simp; omega)]

theorem getD_map_in {X Y : Type} (l : List X) (f : X → Y) (u : Nat) (dX : X) (dY : Y)
    (h : u < l.length) :
    (l.map f).getD u dY = f (l.getD u dX) := by
  rw [List.getD_eq_getElem _ _ (by simpa using h), List.getD_eq_getElem _ _ h]
  simp

theorem mul_add_mod_of_lt (m upN u : Nat) (hu : u < upN) : (m * upN + u) % upN = u := by
  rw [Nat.add_comm, Nat.add_mul_mod_self_right, Nat.mod_eq_of_lt hu]

theorem dvd_iff_mod_eq (upN N u : Nat) (hu : u < upN) :
    upN ∣ (N + upN - u) ↔ N % upN = u := by
  constructor
  · intro hdvd
    have h1 : Nat.ModEq upN u (N + upN) := (Nat.modEq_iff_dvd' (by omega)).mpr hdvd
    have h2 : u % upN = (N + upN) % upN := h1
    rw [Nat.add_mod_right, Nat.mod_eq_of_lt hu] at h2
    omega
  · intro hmod
    apply (Nat.modEq_iff_dvd' (by omega)).mp
    show u % upN = (N + upN) % upN
    rw [Nat.add_mod_right, Nat.mod_eq_of_lt hu, hmod]

theorem cnt_succ (upN N u : Nat) (hu : u < upN) :
    (N + 1 + upN - 1 - u) / upN =
      (N + upN - 1 - u) / upN + if N % upN = u then 1 else 0 := by
  have hx : N + 1 + upN - 1 - u = (N + upN - 1 - u) + 1 := by omega
  rw [hx, Nat.succ_div]
  congr 1
  have hx2 : N + upN - 1 - u + 1 = N + upN - u := by omega
  rw [hx2]
  by_cases h : N % upN = u
  · rw [if_pos ((dvd_iff_mod_eq upN N u hu).mpr h), if_pos h]
  · rw [if_neg (fun hd => h ((dvd_iff_mod_eq upN N u hu).mp hd)), if_neg h]

theorem cnt_mul_add (upN N u : Nat) (hu : u < upN) (hmod : N % upN = u) :
    (N + upN - 1 - u) / upN * upN + u = N := by
  have hq := Nat.div_add_mod N upN
  have hx : N + upN - 1 - u = upN * (N / upN) + (upN - 1) := by omega
  rw [hx, Nat.mul_add_div (by omega), Nat.div_eq_of_lt (by omega : upN - 1 < upN)]
  rw [Nat.add_zero, ← hmod]
  exact Nat.div_add_mod' N upN

theorem cnt_mul_ge (upN N u : Nat) (hu : u < upN) (hu0 : 0 < upN) :
    N ≤ (N + upN - 1 - u) / upN * upN + u := by
  have h1 := Nat.div_add_mod' (N + upN - 1 - u) upN
  have h2 : (N + upN - 1 - u) % upN < upN := Nat.mod_lt _ hu0
  omega

theorem distributeTaps_spec (upN : Nat) (hu0 : 0 < upN) (tp : List ℝ) :
    (distributeTaps upN tp).length = upN ∧
    ∀ u, u < upN →
      ((distributeTaps upN tp).getD u []).length = (tp.length + upN - 1 - u) / upN ∧
      ∀ m, ((distributeTaps upN tp).getD u []).getD m 0 = tp.getD (m * upN + u) 0 := by
  induction tp using List.reverseRecOn with
  | nil =>
    refine ⟨by simp [distributeTaps], ?_⟩
    intro u hu
    have hnil : (distributeTaps upN []).getD u [] = [] := getD_replicate_nil upN u
    refine ⟨?_, ?_⟩
    · rw [hnil, List.length_nil]
      symm
      apply Nat.div_eq_of_lt
      have h0 : ([] : List ℝ).length = 0 := rfl
      omega
    · intro m
      rw [hnil]
      rfl
  | append_singleton tp t ih =>
    obtain ⟨ihlen, ihu⟩ := ih
    have hstep : distributeTaps upN (tp ++ [t]) =
        (distributeTaps upN tp).set (tp.length % upN)
          ((distributeTaps upN tp).getD (tp.length % upN) [] ++ [t]) := by
      unfold distributeTaps
      rw [List.enum_append, List.foldl_append]
      rfl
    have hu0lt : tp.length % upN < upN := Nat.mod_lt _ hu0
    have hlen1 : (tp ++ [t]).length = tp.length + 1 := by simp
    refine ⟨by rw [hstep, List.length_set]; exact ihlen, ?_⟩
    intro u hu
    obtain ⟨ihL, ihG⟩ := ihu u hu
    by_cases hcase : u = tp.length % upN
    · -- the bucket that receives the new tap
      have hget : (distributeTaps upN (tp ++ [t])).getD u [] =
          (distributeTaps upN tp).getD u [] ++ [t] := by
        rw [hstep, hcase]
        exact getD_set_self _ _ _ _ (by rw [ihlen]; exact hu0lt)
      have hmod : tp.length % upN = u := hcase.symm
      have hLmul : ((tp.length + upN - 1 - u) / upN) * upN + u = tp.length :=
        cnt_mul_add upN tp.length u hu hmod
      refine ⟨?_, ?_⟩
      · rw [hget, List.length_append, ihL, hlen1, cnt_succ upN tp.length u hu,
          if_pos hmod]
        rfl
      · intro m
        rw [hget]
        rcases Nat.lt_trichotomy m ((tp.length + upN - 1 - u) / upN) with hm | hm | hm
        · -- still inside the old bucket
          rw [List.getD_append _ _ _ _ (by rw [ihL]; exact hm), ihG m]
          have hidx : m * upN + u < tp.length := by
            have h1 : m * upN < ((tp.length + upN - 1 - u) / upN) * upN :=
              Nat.mul_lt_mul_of_lt_of_le hm (le_refl upN) hu0
            omega
          rw [List.getD_append _ _ _ _ hidx]
        · -- the new element
          have hEq : m * upN + u = tp.length := by rw [hm]; exact hLmul
          rw [List.getD_append_right _ _ _ _ (by rw [ihL]; omega)]
          rw [ihL, show m - (tp.length + upN - 1 - u) / upN = 0 from by omega]
          rw [List.getD_append_right _ _ _ _ (by omega)]
          rw [show m * upN + u - tp.length = 0 from by omega]
        · -- beyond the new length: both defaults
          rw [List.getD_eq_default _ _ (by
            rw [List.length_append, ihL]
            simp only [List.length_cons, List.length_nil]
            omega)]
          rw [List.getD_eq_default _ _ (by
            rw [hlen1]
            have h1 : ((tp.length + upN - 1 - u) / upN + 1) * upN ≤ m * upN :=
              Nat.mul_le_mul_right upN hm
            have h2 : ((tp.length + upN - 1 - u) / upN + 1) * upN =
                ((tp.length + upN - 1 - u) / upN) * upN + upN := by ring
            omega)]
    · -- untouched bucket
      have hget : (distributeTaps upN (tp ++ [t])).getD u [] =
          (distributeTaps upN tp).getD u [] := by
        rw [hstep]
        exact getD_set_ne _ _ _ _ _ (fun h => hcase h.symm)
      have hne : tp.length % upN ≠ u := fun h => hcase h.symm
      refine ⟨?_, ?_⟩
      · rw [hget, ihL, hlen1, cnt_succ upN tp.length u hu, if_neg hne]
        omega
      · intro m
        rw [hget, ihG m]
        have hmodi : (m * upN + u) % upN = u := mul_add_mod_of_lt m upN u hu
        have hne2 : m * upN + u ≠ tp.length := by
          intro h
          rw [← h, hmodi] at hne
          exact hne rfl
        by_cases hlt : m * upN + u < tp.length
        · rw [List.getD_append _ _ _ _ hlt]
        · rw [List.getD_eq_default _ _ (by omega),
            List.getD_eq_default _ _ (by rw [hlen1]; omega)]

theorem init_le_foldl_max (l : List Nat) : ∀ a, a ≤ l.foldl max a := by
  induction l with
  | nil => intro a; exact le_refl a
  | cons y ys ih =>
    intro a
    calc a ≤ max a y := le_max_left a y
      _ ≤ ys.foldl max (max a y) := ih _

theorem le_foldl_max (l : List Nat) : ∀ (a x : Nat), x ∈ l → x ≤ l.foldl max a := by
  induction l with
  | nil =>
    intro a x hx
    simp at hx
  | cons y ys ih =>
    intro a x hx
    rcases List.mem_cons.mp hx with h | h
    · subst h
      calc x ≤ max a x := le_max_right a x
        _ ≤ ys.foldl max (max a x) := init_le_foldl_max ys _
    · exact ih _ x h

theorem foldl_max_le (l : List Nat) : ∀ (a b : Nat), a ≤ b → (∀ x ∈ l, x ≤ b) →
    l.foldl max a ≤ b := by
  induction l with
  | nil =>
    intro a b ha _
    simpa using ha
  | cons x xs ih =>
    intro a b ha hx
    show xs.foldl max (max a x) ≤ b
    apply ih
    · exact max_le ha (hx x (by simp))
    · intro y hy
      exact hx y (by simp [hy])

/-- After distribution and zero-padding, every phase has length
`⌈N/U⌉ = (N + U - 1) / U` and its `m`-th coefficient is `proto[m·U + u]`
(0 beyond the prototype). -/
theorem padded_phases_spec (U N : Nat) (hU : 0 < U) (lp : List ℝ) (hlp : lp.length = N) :
    ((distributeTaps U lp).map
      (fun p => p ++ List.replicate (maxPhaseLen (distributeTaps U lp) - p.length) 0)).length
      = U ∧
    ∀ u, u < U →
      (((distributeTaps U lp).map
        (fun p => p ++ List.replicate (maxPhaseLen (distributeTaps U lp) - p.length) 0)).getD
          u []).length = (N + U - 1) / U ∧
      ∀ m, (((distributeTaps U lp).map
        (fun p => p ++ List.replicate (maxPhaseLen (distributeTaps U lp) - p.length) 0)).getD
          u []).getD m 0 = lp.getD (m * U + u) 0 := by
  obtain ⟨hdlen, hdu⟩ := distributeTaps_spec U hU lp
  have hcnt_le : ∀ u : Nat, (N + U - 1 - u) / U ≤ (N + U - 1) / U := by
    intro u
    apply Nat.div_le_div_right
    omega
  have hmax : maxPhaseLen (distributeTaps U lp) = (N + U - 1) / U := by
    show ((distributeTaps U lp).map List.length).foldl max 0 = _
    apply le_antisymm
    · apply foldl_max_le
      · exact Nat.zero_le _
      · intro x hx
        rw [List.mem_map] at hx
        obtain ⟨q, hq, hqx⟩ := hx
        obtain ⟨i, hi, hqi⟩ := List.mem_iff_getElem.mp hq
        have hiU : i < U := by rw [hdlen] at hi; exact hi
        have hqlen : q.length = (lp.length + U - 1 - i) / U := by
          rw [← hqi, ← List.getD_eq_getElem _ ([] : List ℝ) hi]
          exact (hdu i hiU).1
        rw [← hqx, hqlen, hlp]
        exact hcnt_le i
    · apply le_foldl_max
      rw [List.mem_map]
      refine ⟨(distributeTaps U lp).getD 0 [], ?_, ?_⟩
      · have h0 : (0 : Nat) < (distributeTaps U lp).length := by rw [hdlen]; exact hU
        rw [List.getD_eq_getElem _ _ h0]
        exact List.getElem_mem _
      · rw [(hdu 0 hU).1, hlp]
        congr 1
  refine ⟨by rw [List.length_map, hdlen], ?_⟩
  intro u hu
  have hulen : u < (distributeTaps U lp).length := by rw [hdlen]; exact hu
  have hgetu : ((distributeTaps U lp).map
      (fun p => p ++ List.replicate (maxPhaseLen (distributeTaps U lp) - p.length) 0)).getD
        u [] =
      (distributeTaps U lp).getD u [] ++
        List.replicate (maxPhaseLen (distributeTaps U lp) -
          ((distributeTaps U lp).getD u []).length) 0 :=
    getD_map_in _ _ u [] [] hulen
  have hculen : ((distributeTaps U lp).getD u []).length = (N + U - 1 - u) / U := by
    rw [(hdu u hu).1, hlp]
  refine ⟨?_, ?_⟩
  · rw [hgetu, List.length_append, List.length_replicate, hculen, hmax]
    have := hcnt_le u
    omega
  · intro m
    rw [hgetu]
    by_cases hm : m < ((distributeTaps U lp).getD u []).length
    · rw [List.getD_append _ _ _ _ hm, (hdu u hu).2 m]
    · rw [List.getD_append_right _ _ _ _ (by omega), getD_replicate_zero]
      symm
      apply List.getD_eq_default
      have hge := cnt_mul_ge U lp.length u hu hU
      have hmul : ((lp.length + U - 1 - u) / U) * U ≤ m * U := by
        apply Nat.mul_le_mul_right
        rw [hculen] at hm
        rw [hlp]
        omega
      omega

/-- C4 (counterexample): `RationalResampler::new(1, 2, 3)` does not scale
the prototype by U: phase 1 coefficient 0 equals `proto[1] = 1` itself,
not `U·proto[1] = 2` as the claim's polyphase-gain scaling requires. -/
theorem resampler_new_no_polyphase_gain :
    ((RationalResampler.new 1 2 3).phases.getD 1 []).getD 0 0 = (1 : ℝ) ∧
    ((RationalResampler.new 1 2 3).up : ℝ) *
      (lowpass_taps (0.5 / ((max (2 : Nat) 1 : Nat) : ℝ)) 3).getD 1 0 = (2 : ℝ) ∧
    ((RationalResampler.new 1 2 3).phases.getD 1 []).getD 0 0 ≠
      ((RationalResampler.new 1 2 3).up : ℝ) *
        (lowpass_taps (0.5 / ((max (2 : Nat) 1 : Nat) : ℝ)) 3).getD 1 0 := by
  have hp1 : (lowpass_taps (0.5 / ((max (2 : Nat) 1 : Nat) : ℝ)) 3).getD 1 0 = 1 := by
    rw [show (0.5 / ((max (2 : Nat) 1 : Nat) : ℝ)) = 1/4 from by norm_num]
    rw [lowpass_taps, getD_range_map_any _ _ _ _ (by omega)]
    rw [show (2 * ((1:ℝ)/4) * (((1 : Nat) : ℝ) - (((3 - 1) / 2 : Nat) : ℝ))) = 0 from by
      norm_num]
    rw [sinc, if_pos rfl]
    rw [show (2 * π * (((1 : Nat) : ℝ)) / (((3 : Nat) : ℝ) - 1)) = π from by
      push_cast
      ring]
    rw [Real.cos_pi]
    norm_num
  have hstruct : ((RationalResampler.new 1 2 3).phases.getD 1 []).getD 0 0 =
      (lowpass_taps (0.5 / ((max (2 : Nat) 1 : Nat) : ℝ)) 3).getD 1 0 := rfl
  have hup : (RationalResampler.new 1 2 3).up = 2 := rfl
  refine ⟨hstruct.trans hp1, ?_, ?_⟩
  · rw [hup, hp1]
    norm_num
  · rw [hstruct, hp1, hup]
    norm_num

/-- C4 (amended): `RationalResampler::new(S_in, S_out, N)` computes
`g = gcd(S_in, S_out)`, `U = S_out/g`, `D = S_in/g`, designs the
windowed-sinc prototype with normalized cutoff `0.5 / max(U, D)` — with
no polyphase-gain scaling — and decomposes it into U sub-filters with
`phases[u][m] = proto[m·U + u]`, all zero-padded to equal length
`L = ⌈N/U⌉`. -/
theorem resampler_new_polyphase (start endr num_taps : Nat)
    (hs : 0 < start) (he : 0 < endr) :
    (RationalResampler.new start endr num_taps).up = endr / Nat.gcd start endr ∧
    (RationalResampler.new start endr num_taps).down = start / Nat.gcd start endr ∧
    (RationalResampler.new start endr num_taps).phases.length =
      endr / Nat.gcd start endr ∧
    ∀ u, u < endr / Nat.gcd start endr →
      (((RationalResampler.new start endr num_taps).phases.getD u []).length =
        (num_taps + endr / Nat.gcd start endr - 1) / (endr / Nat.gcd start endr)) ∧
      ∀ m, ((RationalResampler.new start endr num_taps).phases.getD u []).getD m 0 =
        (lowpass_taps
          (0.5 / ((max (endr / Nat.gcd start endr) (start / Nat.gcd start endr) : Nat) : ℝ))
          num_taps).getD (m * (endr / Nat.gcd start endr) + u) 0 := by
  have hg : 0 < Nat.gcd start endr := Nat.gcd_pos_of_pos_left endr hs
  have hU : 0 < endr / Nat.gcd start endr :=
    Nat.div_pos (Nat.le_of_dvd he (Nat.gcd_dvd_right start endr)) hg
  have hphases : (RationalResampler.new start endr num_taps).phases =
      (distributeTaps (endr / Nat.gcd start endr)
        (lowpass_taps
          (0.5 / ((max (endr / Nat.gcd start endr) (start / Nat.gcd start endr) : Nat) : ℝ))
          num_taps)).map
        (fun p => p ++ List.replicate
          (maxPhaseLen (distributeTaps (endr / Nat.gcd start endr)
            (lowpass_taps
              (0.5 /
                ((max (endr / Nat.gcd start endr) (start / Nat.gcd start endr) : Nat) : ℝ))
              num_taps)) - p.length) 0) := rfl
  obtain ⟨hplen, hpu⟩ := padded_phases_spec (endr / Nat.gcd start endr) num_taps hU
    (lowpass_taps
      (0.5 / ((max (endr / Nat.gcd start endr) (start / Nat.gcd start endr) : Nat) : ℝ))
      num_taps)
    (by rw [lowpass_taps]; simp)
  refine ⟨rfl, rfl, by rw [hphases]; exact hplen, ?_⟩
  intro u hu
  refine ⟨by rw [hphases]; exact (hpu u hu).1, ?_⟩
  intro m
  rw [hphases]
  exact (hpu u hu).2 m

/-- Closed witness for the amended C4 at `new(1, 2, 3)`: U = 2, D = 1,
both phases padded to length 2, and phase 1 starts with `proto[1]`. -/
theorem resampler_new_polyphase_witness :
    0 < 1 ∧ 0 < 2 ∧
    (RationalResampler.new 1 2 3).up = 2 / Nat.gcd 1 2 ∧
    (RationalResampler.new 1 2 3).phases.length = 2 / Nat.gcd 1 2 ∧
    ((RationalResampler.new 1 2 3).phases.getD 1 []).length =
      (3 + 2 / Nat.gcd 1 2 - 1) / (2 / Nat.gcd 1 2) ∧
    ((RationalResampler.new 1 2 3).phases.getD 1 []).getD 0 0 =
      (lowpass_taps (0.5 / ((max (2 / Nat.gcd 1 2) (1 / Nat.gcd 1 2) : Nat) : ℝ)) 3).getD
        (0 * (2 / Nat.gcd 1 2) + 1) 0 :=
  ⟨by omega, by omega,
   (resampler_new_polyphase 1 2 3 (by omega) (by omega)).1,
   (resampler_new_polyphase 1 2 3 (by omega) (by omega)).2.2.1,
   ((resampler_new_polyphase 1 2 3 (by omega) (by omega)).2.2.2 1 (by decide)).1,
   ((resampler_new_polyphase 1 2 3 (by omega) (by omega)).2.2.2 1 (by decide)).2 0⟩

end RustDsp
